import Mathlib

/-!
Verification of `dadi/SFS.py` (site frequency spectrum routines).

The Python module is Python 2 code: the `/` operator on two integers is
integer (floor) division.  This matters for `Fst` (where `(r-1)/r` and
`numpy.sum(ns**2)/nsum` are integer divisions) and for `pi` (where
`n/(n-1)` is an integer division).  The embedding below is faithful to
those semantics: quantities the code holds as Python/numpy floats are
modelled as exact rationals (`ℚ`), and quantities the code holds as
integers are modelled as `ℕ` (or `ℤ`) with truncating division.

An SFS (`numpy` array, possibly a masked array) is modelled as a flat
row-major value table together with a flat boolean mask and its shape,
mirroring `mask.flat[0]`/`mask.flat[-1]` indexing used by `mask_corners`.
Masked reductions (`numpy.ma.sum`, `.sum()` on masked arrays) skip masked
entries.  Python float division by zero yields inf/nan without raising,
which the `ℚ` model renders with Lean's `x / 0 = 0` convention; Python 2
integer division by zero, by contrast, raises ZeroDivisionError, and the
one place the module can hit it — `n/(n-1)` in `pi` (and hence in
`Tajima_D`, which calls `pi`) at `n = 1` — is modelled explicitly as an
`Except.error`.
-/

namespace Dadi

/-- Multi-dimensional SFS: `shape` lists the axis lengths, `vals i` is the
entry at flat (row-major) index `i`, and `mask i = true` means the entry is
masked (excluded from reductions), as in a `numpy.ma` masked array. -/
structure Spectrum where
  shape : List ℕ
  vals : ℕ → ℚ
  mask : ℕ → Bool

/-- Total number of entries, `numpy`'s `arr.size` (product of the shape). -/
def Spectrum.size (s : Spectrum) : ℕ := s.shape.prod

/-- Masked sum of all entries: `.sum()` on a masked array /
`numpy.ma.sum` — masked entries contribute nothing. -/
def maskedSum (s : Spectrum) : ℚ :=
  ∑ i ∈ Finset.range s.size, if s.mask i then 0 else s.vals i

/-- Embedding of `mask_corners` (SFS.py lines 173-182): build a mask that is
set at flat indices `0` and `-1` (i.e. `size - 1`) and wrap the input in
`numpy.ma.masked_array(sfs, mask=mask)`; with the default `keep_mask=True`
the result's mask is the union of the input's mask with the new one, and the
data is unchanged. -/
def mask_corners (s : Spectrum) : Spectrum :=
  { s with mask := fun i => s.mask i || decide (i = 0) || decide (i = s.size - 1) }

/-- Error message raised by `Watterson_theta`, `pi` and `Tajima_D` (SFS.py
lines 191, 206, 220) when `sfs.ndim != 1`. -/
def dimErrMsg : String := "Only defined on a one-dimensional SFS."

/-- Error message of the Python 2 ZeroDivisionError raised by the integer
division `n/(n-1)` in `pi` (SFS.py line 211) when `n - 1 == 0`. -/
def zeroDivErrMsg : String := "ZeroDivisionError: integer division or modulo by zero"

/-- Embedding of `Watterson_theta` (SFS.py lines 184-197).  Raises (models as
`Except.error`) unless the spectrum is one-dimensional; otherwise returns
`S / denom` with `S = mask_corners(sfs).sum()` and
`denom = numpy.sum(1./numpy.arange(1, n))` for `n = sfs.shape[0] - 1`,
i.e. `denom = Σ_{i=1}^{n-1} 1/i`. -/
def Watterson_theta (s : Spectrum) : Except String ℚ :=
  match s.shape with
  | [m] => .ok (maskedSum (mask_corners s) / ∑ i ∈ Finset.Ico 1 (m - 1), (1 : ℚ) / i)
  | _ => .error dimErrMsg

/-- Embedding of `pi` (SFS.py lines 199-211).  Raises unless one-dimensional;
otherwise returns `n/(n-1) * 2 * numpy.ma.sum(sfs*p*(1-p))` with
`p_i = i/n` and `n = sfs.shape[0] - 1`.  Both `n` and `n - 1` are Python
ints, so `n/(n-1)` is Python 2 integer division: when the divisor `n - 1`
is zero (a spectrum of length 2, `n = 1`) Python raises ZeroDivisionError,
modelled as `Except.error zeroDivErrMsg`; otherwise, on the remaining
domain (`n ≥ 2`, or `n ≤ 0` where the masked sum the quotient multiplies
is over at most one entry with `p(1-p) = 0` or is empty), the value agrees
with the Python result, the float divisions `i/n` being exact over `ℚ`
(with `x/0 = 0` standing in for the non-raising float inf/nan at
`n = 0`). -/
def pi (s : Spectrum) : Except String ℚ :=
  match s.shape with
  | [m] =>
    let n : ℤ := (m : ℤ) - 1
    if n - 1 = 0 then .error zeroDivErrMsg
    else
      .ok ((((n / (n - 1) : ℤ) : ℚ)) * 2 *
        ∑ i ∈ Finset.range m,
          if s.mask i then 0 else s.vals i * ((i : ℚ) / (n : ℚ)) * (1 - (i : ℚ) / (n : ℚ)))
  | _ => .error dimErrMsg

end Dadi

/-- Claim C9: `mask_corners` is idempotent and purely additive — applying it
twice yields exactly the same mask set and entry values as applying it once,
and every entry masked in the input remains masked in the output. -/
theorem mask_corners_idempotent_additive (s : Dadi.Spectrum) :
    Dadi.mask_corners (Dadi.mask_corners s) = Dadi.mask_corners s ∧
      ∀ i, s.mask i = true → (Dadi.mask_corners s).mask i = true := by
  constructor
  · show Dadi.Spectrum.mk _ _ _ = Dadi.Spectrum.mk _ _ _
    congr 1
    funext i
    simp only [Dadi.mask_corners, Dadi.Spectrum.size]
    cases s.mask i <;> cases h0 : decide (i = 0) <;>
      cases h1 : decide (i = s.shape.prod - 1) <;> simp_all
  · intro i h
    simp [Dadi.mask_corners, h]

/-- Witness for C9 at a concrete masked 1-D spectrum of length 3 whose middle
entry is pre-masked. -/
theorem mask_corners_idempotent_additive_witness :
    Dadi.mask_corners (Dadi.mask_corners ⟨[3], fun _ => 1, fun i => decide (i = 1)⟩) =
        Dadi.mask_corners ⟨[3], fun _ => 1, fun i => decide (i = 1)⟩ ∧
      (Dadi.mask_corners ⟨[3], fun _ => 1, fun i => decide (i = 1)⟩).mask 1 = true :=
  ⟨(mask_corners_idempotent_additive ⟨[3], fun _ => 1, fun i => decide (i = 1)⟩).1,
   (mask_corners_idempotent_additive ⟨[3], fun _ => 1, fun i => decide (i = 1)⟩).2 1 (by decide)⟩

/-- Concrete 1-D SFS `[0,2,3,1,0]` (n = 4, corners pre-zero) from the spec's
worked scenario. -/
def sfs02310 : Dadi.Spectrum :=
  ⟨[5], fun i => ([0, 2, 3, 1, 0] : List ℚ).getD i 0, fun _ => false⟩

/-- Claim C8: on a 1-D SFS of length `m = n+1`, `Watterson_theta` returns
`S / Σ_{i=1}^{n-1} 1/i`, where `S` is the sum of the entries left unmasked
after additionally masking the first and last entry; in particular on
`[0,2,3,1,0]` it returns `6 / (1 + 1/2 + 1/3) = 36/11`. -/
theorem Watterson_theta_formula_and_example :
    (∀ (m : ℕ) (v : ℕ → ℚ) (mk : ℕ → Bool),
      Dadi.Watterson_theta ⟨[m], v, mk⟩ =
        .ok ((∑ i ∈ Finset.range m,
                if mk i || decide (i = 0) || decide (i = m - 1) then 0 else v i) /
              ∑ i ∈ Finset.Ico 1 (m - 1), (1 : ℚ) / i)) ∧
    Dadi.Watterson_theta sfs02310 = .ok (36 / 11) := by
  constructor
  · intro m v mk
    simp [Dadi.Watterson_theta, Dadi.maskedSum, Dadi.mask_corners, Dadi.Spectrum.size]
  · show Except.ok _ = _
    congr 1
    rw [show (5 : ℕ) - 1 = 4 from rfl, Finset.sum_Ico_eq_sum_range]
    simp [Dadi.maskedSum, Dadi.mask_corners, Dadi.Spectrum.size, sfs02310,
      Finset.sum_range_succ]
    norm_num

namespace Dadi

/-- Binomial sampling factor `comb(n, i) * x**i * (1-x)**(n-i)` used by all
three discretization routines (`scipy.comb` is the binomial coefficient,
zero when `i > n`, exactly like `Nat.choose`). -/
def factor (n i : ℕ) (x : ℚ) : ℚ := (n.choose i : ℚ) * x ^ i * (1 - x) ^ (n - i)

/-- Trapezoidal quadrature with an explicit spacing sequence `d`:
`scipy.integrate.trapz(y, dx=d)` for a sample vector `y` of length `m`,
namely `Σ_k d_k (y_k + y_{k+1}) / 2`. -/
def trapzDx (f d : ℕ → ℚ) (m : ℕ) : ℚ :=
  ∑ k ∈ Finset.range (m - 1), d k * (f k + f (k + 1)) / 2

/-- Forward differences `numpy.diff(xx)` of a grid. -/
def diffOf (g : ℕ → ℚ) : ℕ → ℚ := fun k => g (k + 1) - g k

/-- Trapezoidal quadrature against a sample-point grid:
`scipy.integrate.trapz(y, xx)` = `Σ_k (xx_{k+1} - xx_k)(y_k + y_{k+1})/2`. -/
def trapz (f xx : ℕ → ℚ) (m : ℕ) : ℚ := trapzDx f (diffOf xx) m

/-- Embedding of `sfs_from_phi_1D` (SFS.py lines 11-17): entry `ii` is
`trapz(factorx * phi, xx)` where `factorx = comb(n,ii) * xx**ii *
(1-xx)**(n-ii)`; the grid has `m` points. -/
def sfs_from_phi_1D (n : ℕ) (xx phi : ℕ → ℚ) (m : ℕ) : ℕ → ℚ :=
  fun ii => trapz (fun j => factor n ii (xx j) * phi j) xx m

/-- The explicit innermost quadrature of `sfs_from_phi_3D` (SFS.py line 65):
`numpy.sum(half_dx * (integrand[1:] + integrand[:-1]))` with
`half_dx = numpy.diff(xx)/2.0`. -/
def halfStepSum (f xx : ℕ → ℚ) (m : ℕ) : ℚ :=
  ∑ k ∈ Finset.range (m - 1), (xx (k + 1) - xx k) / 2 * (f (k + 1) + f k)

/-- Embedding of `sfs_from_phi_3D` (SFS.py lines 39-68): entry `(ii,jj,kk)`
integrates `factorz * phi` over the innermost `zz` axis with
`trapz(..., dx=dz)`, then `factory * over_z` over `yy` with
`trapz(..., dx=dy)`, and finally `factorx * over_y` over `xx` with the
explicit half-step weighted sum. -/
def sfs_from_phi_3D (nx ny nz : ℕ) (xx yy zz : ℕ → ℚ) (mx my mz : ℕ)
    (phi : ℕ → ℕ → ℕ → ℚ) (ii jj kk : ℕ) : ℚ :=
  halfStepSum
    (fun i => factor nx ii (xx i) *
      trapzDx (fun j => factor ny jj (yy j) *
          trapzDx (fun k => factor nz kk (zz k) * phi i j k) (diffOf zz) mz)
        (diffOf yy) my)
    xx mx

/-- Variant of `sfs_from_phi_3D` described by the spec sentence for claim C4:
identical except that the innermost (x-axis) integration calls the general
trapezoidal-quadrature primitive `trapz` instead of the explicit half-step
weighted sum. -/
def sfs_from_phi_3D_general (nx ny nz : ℕ) (xx yy zz : ℕ → ℚ) (mx my mz : ℕ)
    (phi : ℕ → ℕ → ℕ → ℚ) (ii jj kk : ℕ) : ℚ :=
  trapz
    (fun i => factor nx ii (xx i) *
      trapzDx (fun j => factor ny jj (yy j) *
          trapzDx (fun k => factor nz kk (zz k) * phi i j k) (diffOf zz) mz)
        (diffOf yy) my)
    xx mx

end Dadi

/-- Partition of unity for the binomial factors: at any grid point `x`, the
factors `comb(n,i) x^i (1-x)^(n-i)` summed over `i = 0..n` equal `1`. -/
theorem binomial_factor_partition (n : ℕ) (x : ℚ) :
    ∑ ii ∈ Finset.range (n + 1), Dadi.factor n ii x = 1 := by
  have h := add_pow x (1 - x) n
  rw [show x + (1 - x) = (1 : ℚ) from by ring, one_pow] at h
  rw [show (∑ ii ∈ Finset.range (n + 1), Dadi.factor n ii x) =
      ∑ k ∈ Finset.range (n + 1), x ^ k * (1 - x) ^ (n - k) * (n.choose k : ℚ) from
    Finset.sum_congr rfl fun i _ => by unfold Dadi.factor; ring]
  exact h.symm

/-- Claim C3: for every sample size `n` and grid `xx`, with the uniform
density `phi = 1`, the entries of `sfs_from_phi_1D` sum (over all `n+1`
entries) to exactly the trapezoidal-rule integral of `phi` over `xx` — the
binomial factors form a partition of unity and trapezoidal quadrature is
linear. -/
theorem sfs_from_phi_1D_sum_eq_integral (n m : ℕ) (xx : ℕ → ℚ) :
    ∑ ii ∈ Finset.range (n + 1), Dadi.sfs_from_phi_1D n xx (fun _ => 1) m ii =
      Dadi.trapz (fun _ => 1) xx m := by
  unfold Dadi.sfs_from_phi_1D Dadi.trapz Dadi.trapzDx
  rw [Finset.sum_comm]
  refine Finset.sum_congr rfl fun k _ => ?_
  rw [← Finset.sum_div, ← Finset.mul_sum, Finset.sum_add_distrib]
  simp only [mul_one]
  rw [binomial_factor_partition, binomial_factor_partition]

/-- Claim C4: the explicit innermost half-step weighted sum of
`sfs_from_phi_3D` coincides with the general trapezoidal quadrature for
every integrand and grid, and consequently `sfs_from_phi_3D` agrees
entry-for-entry with the variant that calls the general quadrature primitive
on the innermost axis. -/
theorem sfs_from_phi_3D_matches_general_trapz :
    (∀ (f xx : ℕ → ℚ) (m : ℕ), Dadi.halfStepSum f xx m = Dadi.trapz f xx m) ∧
    ∀ (nx ny nz : ℕ) (xx yy zz : ℕ → ℚ) (mx my mz : ℕ)
      (phi : ℕ → ℕ → ℕ → ℚ) (ii jj kk : ℕ),
      Dadi.sfs_from_phi_3D nx ny nz xx yy zz mx my mz phi ii jj kk =
        Dadi.sfs_from_phi_3D_general nx ny nz xx yy zz mx my mz phi ii jj kk := by
  have h1 : ∀ (f xx : ℕ → ℚ) (m : ℕ), Dadi.halfStepSum f xx m = Dadi.trapz f xx m := by
    intro f xx m
    unfold Dadi.halfStepSum Dadi.trapz Dadi.trapzDx Dadi.diffOf
    exact Finset.sum_congr rfl fun k _ => by ring
  refine ⟨h1, fun nx ny nz xx yy zz mx my mz phi ii jj kk => ?_⟩
  unfold Dadi.sfs_from_phi_3D Dadi.sfs_from_phi_3D_general
  rw [h1]

namespace Dadi

/-- Modelled from the spec: `Numerics.intersect_masks` is imported from the
repository module `Numerics`, which is not under `src/`.  The spec's
collaborator contract (section 6, item b) specifies "an intersect-masks
primitive returning two array views sharing the logical-OR of both inputs'
masks while preserving each view's own data". -/
def intersect_masks (a b : Spectrum) : Spectrum × Spectrum :=
  (⟨a.shape, a.vals, fun i => a.mask i || b.mask i⟩,
   ⟨b.shape, b.vals, fun i => a.mask i || b.mask i⟩)

/-- Embedding of `optimal_sfs_scaling` (SFS.py lines 78-86): intersect the
masks of model and data, then return `data.sum()/model.sum()` over the
resulting views. -/
def optimal_sfs_scaling (model data : Spectrum) : ℚ :=
  maskedSum (intersect_masks model data).2 / maskedSum (intersect_masks model data).1

end Dadi

/-- Model spectrum `[1, 2]` used for claim C5 (no mask). -/
def modelC5 : Dadi.Spectrum := ⟨[2], fun i => if i = 0 then 1 else 2, fun _ => false⟩

/-- Data spectrum `[2, 1]` used for claim C5 (no mask). -/
def dataC5 : Dadi.Spectrum := ⟨[2], fun i => if i = 0 then 2 else 1, fun _ => false⟩

/-- Counterexample to claim C5 as stated: on model `[1,2]`, data `[2,1]`
(nothing masked), `optimal_sfs_scaling` returns `Σdata/Σmodel = 1`, but
`c = 4/5` gives a strictly smaller value of `Σ(data - c*model)²` — so the
returned scalar is not the least-squares minimizer (the minimizer here is
`Σ(data*model)/Σ(model²) = 4/5 ≠ Σdata/Σmodel`). -/
theorem optimal_sfs_scaling_not_least_squares :
    Dadi.optimal_sfs_scaling modelC5 dataC5 = 1 ∧
      (∑ i ∈ Finset.range 2, (dataC5.vals i - (4 / 5 : ℚ) * modelC5.vals i) ^ 2) <
        ∑ i ∈ Finset.range 2,
          (dataC5.vals i - Dadi.optimal_sfs_scaling modelC5 dataC5 * modelC5.vals i) ^ 2 := by
  have h : Dadi.optimal_sfs_scaling modelC5 dataC5 = 1 := by
    simp [Dadi.optimal_sfs_scaling, Dadi.intersect_masks, Dadi.maskedSum,
      Dadi.Spectrum.size, modelC5, dataC5, Finset.sum_range_succ]
    norm_num
  refine ⟨h, ?_⟩
  rw [h]
  simp [modelC5, dataC5, Finset.sum_range_succ]
  norm_num

/-- Claim C5 as amended: `optimal_sfs_scaling(model, data)` returns the ratio
`Σdata / Σmodel` over the entries unmasked in both model and data, and (when
`Σmodel` over those entries is nonzero) this scalar makes the aggregate
residual `Σ(data - c*model)` over those entries exactly zero. -/
theorem optimal_sfs_scaling_ratio_and_zero_residual
    (model data : Dadi.Spectrum) (hsh : model.shape = data.shape) :
    Dadi.optimal_sfs_scaling model data =
        (∑ i ∈ Finset.range data.size, if model.mask i || data.mask i then 0 else data.vals i) /
          (∑ i ∈ Finset.range model.size,
            if model.mask i || data.mask i then 0 else model.vals i) ∧
      ((∑ i ∈ Finset.range model.size,
          if model.mask i || data.mask i then 0 else model.vals i) ≠ 0 →
        ∑ i ∈ Finset.range model.size,
          (if model.mask i || data.mask i then 0
           else data.vals i - Dadi.optimal_sfs_scaling model data * model.vals i) = 0) := by
  have hsize : model.size = data.size := by simp [Dadi.Spectrum.size, hsh]
  have hval : Dadi.optimal_sfs_scaling model data =
      (∑ i ∈ Finset.range data.size, if model.mask i || data.mask i then 0 else data.vals i) /
        (∑ i ∈ Finset.range model.size,
          if model.mask i || data.mask i then 0 else model.vals i) := rfl
  refine ⟨hval, fun hM => ?_⟩
  have hsplit : ∀ i, (if model.mask i || data.mask i then 0
      else data.vals i - Dadi.optimal_sfs_scaling model data * model.vals i) =
      (if model.mask i || data.mask i then 0 else data.vals i) -
        Dadi.optimal_sfs_scaling model data *
          (if model.mask i || data.mask i then 0 else model.vals i) := by
    intro i
    by_cases hb : model.mask i || data.mask i <;> simp [hb]
  calc ∑ i ∈ Finset.range model.size,
        (if model.mask i || data.mask i then 0
         else data.vals i - Dadi.optimal_sfs_scaling model data * model.vals i)
      = (∑ i ∈ Finset.range model.size, if model.mask i || data.mask i then 0 else data.vals i) -
          Dadi.optimal_sfs_scaling model data *
            (∑ i ∈ Finset.range model.size,
              if model.mask i || data.mask i then 0 else model.vals i) := by
        rw [Finset.sum_congr rfl fun i _ => hsplit i, Finset.sum_sub_distrib, Finset.mul_sum]
    _ = 0 := by
        rw [hsize] at hM
        rw [hval, hsize, div_mul_cancel₀ _ hM, sub_self]

/-- Witness for C5's amended theorem at model `[1,2]`, data `[2,1]`: the
unmasked model total `3` is nonzero and the aggregate residual vanishes. -/
theorem optimal_sfs_scaling_ratio_witness :
    (∑ i ∈ Finset.range modelC5.size,
        if modelC5.mask i || dataC5.mask i then 0 else modelC5.vals i) ≠ 0 ∧
      ∑ i ∈ Finset.range modelC5.size,
        (if modelC5.mask i || dataC5.mask i then 0
         else dataC5.vals i - Dadi.optimal_sfs_scaling modelC5 dataC5 * modelC5.vals i) = 0 := by
  have hM : (∑ i ∈ Finset.range modelC5.size,
      if modelC5.mask i || dataC5.mask i then 0 else modelC5.vals i) ≠ 0 := by
    simp [modelC5, dataC5, Dadi.Spectrum.size, Finset.sum_range_succ]
    norm_num
  exact ⟨hM, (optimal_sfs_scaling_ratio_and_zero_residual modelC5 dataC5 rfl).2 hM⟩

namespace Dadi

/-- Names bound at module level in `SFS.py` (lines 1-9 imports plus the
module's own function definitions).  Note that `lncomb` is not among them:
line 8 imports only `reverse_array` and `trapz` from `Numerics`, and no
other import or definition binds `lncomb`. -/
def moduleNames : List String :=
  ["numpy", "nuax", "comb", "gammaln", "Numerics", "reverse_array", "trapz",
   "sfs_from_phi_1D", "sfs_from_phi_2D", "sfs_from_phi_3D",
   "optimally_scaled_sfs", "optimal_sfs_scaling", "Fst", "randomly_resampled_2D",
   "mask_corners", "Watterson_theta", "pi", "Tajima_D"]

/-- Modelled from the spec: `lncomb` (the log-binomial-coefficient service of
the repository's `Numerics` module, which is not under `src/`) per the spec's
resampling contract — `P = C(derived_total, derived1) *
C(ancestral_total, ancestral1) / C(n1+n2, n1)` computed in log space and
exponentiated, skipped when non-positive.  In the exact rational model,
`exp(lncomb(a,b)) = C(a,b)` (zero outside `0 ≤ b ≤ a`, like `Nat.choose`),
so the probability is this exact hypergeometric ratio. -/
def hypergeomProb (ntot n1 dt d1 : ℕ) : ℚ :=
  (dt.choose d1 : ℚ) * ((ntot - dt).choose (n1 - d1) : ℚ) / (ntot.choose n1 : ℚ)

/-- The pooled 1-D spectrum `sfs_combined` of `randomly_resampled_2D`
(SFS.py lines 149-156): bin `dt` accumulates every genuinely scalar
(i.e. unmasked) entry whose indices satisfy `ii + jj = dt`. -/
def pooled (s : Spectrum) (m1 m2 dt : ℕ) : ℚ :=
  ∑ p ∈ (Finset.range m1 ×ˢ Finset.range m2).filter (fun p => p.1 + p.2 = dt),
    (if s.mask (m2 * p.1 + p.2) then 0 else s.vals (m2 * p.1 + p.2))

/-- Modelled from the spec: `randomly_resampled_2D` with the missing `lncomb`
collaborator supplied per the spec (see `hypergeomProb`).  Faithful to the
source loop structure (SFS.py lines 158-171): for each `derived1` and each
pooled bin `derived_total`, the hypergeometric weight times the bin count is
added at `(derived1, derived2 = derived_total - derived1)` whenever the
probability is positive; for an in-range output cell `(d1, d2)` the only
contributing bin is `derived_total = d1 + d2` (for any other bin either
`C(derived_total, d1)` or `C(ancestral_total, n1 - d1)` vanishes, so the
guard `prob > 0` skips the write).  The output is a fresh unmasked array
`numpy.zeros(sfs.shape)`. -/
def randomly_resampled_2D_model (s : Spectrum) : Except String Spectrum :=
  match s.shape with
  | [m1, m2] =>
    .ok ⟨[m1, m2],
      fun fl =>
        let d1 := fl / m2
        let d2 := fl % m2
        let prob := hypergeomProb (m1 - 1 + (m2 - 1)) (m1 - 1) (d1 + d2) d1
        if 0 < prob then prob * pooled s m1 m2 (d1 + d2) else 0,
      fun _ => false⟩
  | _ => .error "ValueError: unpacking mismatch"

/-- Embedding of `randomly_resampled_2D` exactly as written (SFS.py lines
138-171).  A non-rank-2 spectrum fails at the tuple unpacking
`n1,n2 = numpy.asarray(sfs.shape)-1`.  For a rank-2 spectrum the loops
`for derived1 in range(n1+1)` and `for derived_total, num_snps in
enumerate(sfs_combined)` both range over at least one value (axis lengths
are `n+1 ≥ 1`), so the first iteration evaluates the free name `lncomb`
(line 166); Python resolves it against the module's bound names
(`moduleNames`) and raises `NameError` since it is absent. -/
def randomly_resampled_2D (s : Spectrum) : Except String Spectrum :=
  match s.shape with
  | [_, _] =>
    if "lncomb" ∈ moduleNames then randomly_resampled_2D_model s
    else .error "NameError: name lncomb is not defined"
  | _ => .error "ValueError: unpacking mismatch"

end Dadi

/-- Claim C7: `lncomb` is neither defined in the module nor imported by it,
so on every rank-2 SFS (axis lengths `n+1 ≥ 1`, hence nonempty loops) the
call evaluates the unbound name and fails with a NameError before returning
a resampled spectrum. -/
theorem randomly_resampled_2D_raises_NameError :
    "lncomb" ∉ Dadi.moduleNames ∧
      ∀ (s : Dadi.Spectrum) (m1 m2 : ℕ), s.shape = [m1, m2] →
        Dadi.randomly_resampled_2D s = .error "NameError: name lncomb is not defined" := by
  refine ⟨by decide, fun s m1 m2 h => ?_⟩
  obtain ⟨sh, v, mk⟩ := s
  obtain rfl : sh = [m1, m2] := h
  simp only [Dadi.randomly_resampled_2D]
  rw [if_neg (by decide)]

/-- Witness for C7 at the concrete 2×2 all-ones spectrum. -/
theorem randomly_resampled_2D_raises_NameError_witness :
    Dadi.randomly_resampled_2D ⟨[2, 2], fun _ => 1, fun _ => false⟩ =
      .error "NameError: name lncomb is not defined" :=
  randomly_resampled_2D_raises_NameError.2 ⟨[2, 2], fun _ => 1, fun _ => false⟩ 2 2 rfl

theorem sum_range_mul_eq (f : ℕ → ℚ) (a b : ℕ) :
    ∑ k ∈ Finset.range (a * b), f k =
      ∑ i ∈ Finset.range a, ∑ j ∈ Finset.range b, f (b * i + j) := by
  induction a with
  | zero => simp
  | succ a ih =>
    have hsplit : ∑ k ∈ Finset.range (a * b + b), f k =
        (∑ k ∈ Finset.range (a * b), f k) + ∑ i ∈ Finset.Ico (a * b) (a * b + b), f i := by
      rw [Finset.range_eq_Ico]
      exact (Finset.sum_Ico_consecutive f (Nat.zero_le (a * b)) (Nat.le_add_right (a * b) b)).symm
    rw [Nat.succ_mul, hsplit, ih, Finset.sum_range_succ]
    congr 1
    rw [Finset.sum_Ico_eq_sum_range, Nat.add_sub_cancel_left]
    exact Finset.sum_congr rfl fun j _ => by rw [mul_comm b a]

theorem choose_sum_vandermonde (ntot n1 dt : ℕ) (h : dt ≤ ntot) :
    ∑ d1 ∈ Finset.range (n1 + 1), dt.choose d1 * (ntot - dt).choose (n1 - d1) =
      ntot.choose n1 := by
  conv_rhs => rw [← Nat.add_sub_cancel' h]
  rw [Nat.add_choose_eq]
  exact (Finset.Nat.sum_antidiagonal_eq_sum_range_succ
    (fun i j => dt.choose i * (ntot - dt).choose j) n1).symm

theorem hypergeomProb_nonneg (ntot n1 dt d1 : ℕ) : 0 ≤ Dadi.hypergeomProb ntot n1 dt d1 := by
  unfold Dadi.hypergeomProb
  positivity

theorem resample_total (s : Dadi.Spectrum) (m1 m2 : ℕ) (h1 : 1 ≤ m1) (h2 : 1 ≤ m2) :
    ∑ i ∈ Finset.range m1, ∑ j ∈ Finset.range m2,
        (if 0 < Dadi.hypergeomProb (m1 - 1 + (m2 - 1)) (m1 - 1) (i + j) i
         then Dadi.hypergeomProb (m1 - 1 + (m2 - 1)) (m1 - 1) (i + j) i *
              Dadi.pooled s m1 m2 (i + j)
         else 0) =
      ∑ i ∈ Finset.range m1, ∑ j ∈ Finset.range m2,
        (if s.mask (m2 * i + j) then 0 else s.vals (m2 * i + j)) := by
  set n1 := m1 - 1 with hn1
  set n2 := m2 - 1 with hn2
  set ntot := n1 + n2 with hntot
  -- drop the positivity guard: the probability is nonnegative, so the guard
  -- only skips terms that are zero anyway
  have hguard : ∀ i j : ℕ,
      (if 0 < Dadi.hypergeomProb ntot n1 (i + j) i
       then Dadi.hypergeomProb ntot n1 (i + j) i * Dadi.pooled s m1 m2 (i + j)
       else 0) =
      Dadi.hypergeomProb ntot n1 (i + j) i * Dadi.pooled s m1 m2 (i + j) := by
    intro i j
    by_cases hp : 0 < Dadi.hypergeomProb ntot n1 (i + j) i
    · rw [if_pos hp]
    · rw [if_neg hp, le_antisymm (not_lt.mp hp) (hypergeomProb_nonneg ntot n1 (i + j) i),
        zero_mul]
  -- the inner Vandermonde identity: for each pooled bin the hypergeometric
  -- weights over d1 sum to one
  have hinner : ∀ dt ∈ Finset.range (ntot + 1),
      ∑ d1 ∈ Finset.range m1, Dadi.hypergeomProb ntot n1 dt d1 = 1 := by
    intro dt hdt
    rw [Finset.mem_range] at hdt
    have hdt' : dt ≤ ntot := by omega
    unfold Dadi.hypergeomProb
    rw [← Finset.sum_div]
    have hm1 : m1 = n1 + 1 := by omega
    rw [hm1]
    rw [show (∑ d1 ∈ Finset.range (n1 + 1),
          ((dt.choose d1 : ℚ) * ((ntot - dt).choose (n1 - d1) : ℚ))) =
        ((∑ d1 ∈ Finset.range (n1 + 1),
          dt.choose d1 * (ntot - dt).choose (n1 - d1) : ℕ) : ℚ) from by push_cast; rfl]
    rw [choose_sum_vandermonde ntot n1 dt hdt']
    exact div_self (by exact_mod_cast (Nat.choose_pos (by omega)).ne')
  calc ∑ i ∈ Finset.range m1, ∑ j ∈ Finset.range m2,
        (if 0 < Dadi.hypergeomProb ntot n1 (i + j) i
         then Dadi.hypergeomProb ntot n1 (i + j) i * Dadi.pooled s m1 m2 (i + j)
         else 0)
      = ∑ i ∈ Finset.range m1, ∑ j ∈ Finset.range m2,
          Dadi.hypergeomProb ntot n1 (i + j) i * Dadi.pooled s m1 m2 (i + j) :=
        Finset.sum_congr rfl fun i _ => Finset.sum_congr rfl fun j _ => hguard i j
    _ = ∑ p ∈ Finset.range m1 ×ˢ Finset.range m2,
          Dadi.hypergeomProb ntot n1 (p.1 + p.2) p.1 * Dadi.pooled s m1 m2 (p.1 + p.2) := by
        rw [Finset.sum_product]
    _ = ∑ q ∈ (Finset.range (ntot + 1) ×ˢ Finset.range m1).filter
            (fun q => q.2 ≤ q.1 ∧ q.1 - q.2 < m2),
          Dadi.hypergeomProb ntot n1 q.1 q.2 * Dadi.pooled s m1 m2 q.1 := by
        refine Finset.sum_nbij' (fun p => (p.1 + p.2, p.1)) (fun q => (q.2, q.1 - q.2))
          ?_ ?_ ?_ ?_ ?_
        · rintro ⟨x, y⟩ hp
          simp only [Finset.mem_product, Finset.mem_range] at hp
          simp only [Finset.mem_filter, Finset.mem_product, Finset.mem_range]
          omega
        · rintro ⟨u, w⟩ hq
          simp only [Finset.mem_filter, Finset.mem_product, Finset.mem_range] at hq
          simp only [Finset.mem_product, Finset.mem_range]
          omega
        · rintro ⟨x, y⟩ hp
          simp only [Finset.mem_product, Finset.mem_range] at hp
          simp only [Prod.mk.injEq, true_and, and_true]
          omega
        · rintro ⟨u, w⟩ hq
          simp only [Finset.mem_filter, Finset.mem_product, Finset.mem_range] at hq
          simp only [Prod.mk.injEq, true_and, and_true]
          omega
        · intro p hp
          rfl
    _ = ∑ q ∈ Finset.range (ntot + 1) ×ˢ Finset.range m1,
          Dadi.hypergeomProb ntot n1 q.1 q.2 * Dadi.pooled s m1 m2 q.1 := by
        refine Finset.sum_subset (Finset.filter_subset _ _) ?_
        rintro ⟨u, w⟩ hq hq'
        simp only [Finset.mem_product, Finset.mem_range] at hq
        simp only [Finset.mem_filter, Finset.mem_product, Finset.mem_range, not_and] at hq'
        by_cases hle : w ≤ u
        · have hge : m2 ≤ u - w := by
            have := hq' ⟨hq.1, hq.2⟩ hle
            omega
          have hch : (ntot - u).choose (n1 - w) = 0 :=
            Nat.choose_eq_zero_of_lt (by omega)
          simp [Dadi.hypergeomProb, hch]
        · have hch : u.choose w = 0 := Nat.choose_eq_zero_of_lt (by omega)
          simp [Dadi.hypergeomProb, hch]
    _ = ∑ dt ∈ Finset.range (ntot + 1), ∑ d1 ∈ Finset.range m1,
          Dadi.hypergeomProb ntot n1 dt d1 * Dadi.pooled s m1 m2 dt := by
        rw [Finset.sum_product]
    _ = ∑ dt ∈ Finset.range (ntot + 1), Dadi.pooled s m1 m2 dt := by
        refine Finset.sum_congr rfl fun dt hdt => ?_
        rw [← Finset.sum_mul, hinner dt hdt, one_mul]
    _ = ∑ p ∈ Finset.range m1 ×ˢ Finset.range m2,
          (if s.mask (m2 * p.1 + p.2) then 0 else s.vals (m2 * p.1 + p.2)) := by
        unfold Dadi.pooled
        refine Finset.sum_fiberwise_of_maps_to ?_ _
        intro p hp
        simp only [Finset.mem_product, Finset.mem_range] at hp
        simp only [Finset.mem_range]
        omega
    _ = ∑ i ∈ Finset.range m1, ∑ j ∈ Finset.range m2,
          (if s.mask (m2 * i + j) then 0 else s.vals (m2 * i + j)) := by
        rw [Finset.sum_product]

theorem randomly_resampled_2D_model_preserves_total
    (s : Dadi.Spectrum) (m1 m2 : ℕ) (hsh : s.shape = [m1, m2])
    (h1 : 1 ≤ m1) (h2 : 1 ≤ m2) :
    ∃ t, Dadi.randomly_resampled_2D_model s = .ok t ∧
      Dadi.maskedSum t = Dadi.maskedSum s := by
  obtain ⟨sh, v, mk⟩ := s
  obtain rfl : sh = [m1, m2] := hsh
  refine ⟨_, rfl, ?_⟩
  unfold Dadi.maskedSum Dadi.Spectrum.size
  simp only [List.prod_cons, List.prod_nil, mul_one, Bool.false_eq_true, if_false]
  calc ∑ fl ∈ Finset.range (m1 * m2),
        (let d1 := fl / m2
         let d2 := fl % m2
         let prob := Dadi.hypergeomProb (m1 - 1 + (m2 - 1)) (m1 - 1) (d1 + d2) d1
         if 0 < prob then
           prob * Dadi.pooled ⟨[m1, m2], v, mk⟩ m1 m2 (d1 + d2)
         else 0)
      = ∑ i ∈ Finset.range m1, ∑ j ∈ Finset.range m2,
          (let d1 := (m2 * i + j) / m2
           let d2 := (m2 * i + j) % m2
           let prob := Dadi.hypergeomProb (m1 - 1 + (m2 - 1)) (m1 - 1) (d1 + d2) d1
           if 0 < prob then
             prob * Dadi.pooled ⟨[m1, m2], v, mk⟩ m1 m2 (d1 + d2)
           else 0) := sum_range_mul_eq _ m1 m2
    _ = ∑ i ∈ Finset.range m1, ∑ j ∈ Finset.range m2,
          (if 0 < Dadi.hypergeomProb (m1 - 1 + (m2 - 1)) (m1 - 1) (i + j) i
           then Dadi.hypergeomProb (m1 - 1 + (m2 - 1)) (m1 - 1) (i + j) i *
                Dadi.pooled ⟨[m1, m2], v, mk⟩ m1 m2 (i + j)
           else 0) := by
        refine Finset.sum_congr rfl fun i _ => Finset.sum_congr rfl fun j hj => ?_
        rw [Finset.mem_range] at hj
        have hdiv : (m2 * i + j) / m2 = i := by
          rw [Nat.mul_add_div (by omega), Nat.div_eq_of_lt hj, Nat.add_zero]
        have hmod : (m2 * i + j) % m2 = j := by
          rw [Nat.mul_add_mod, Nat.mod_eq_of_lt hj]
        simp only [hdiv, hmod]
    _ = ∑ i ∈ Finset.range m1, ∑ j ∈ Finset.range m2,
          (if mk (m2 * i + j) then 0 else v (m2 * i + j)) :=
        resample_total ⟨[m1, m2], v, mk⟩ m1 m2 h1 h2
    _ = ∑ fl ∈ Finset.range (m1 * m2), (if mk fl then 0 else v fl) :=
        (sum_range_mul_eq (fun fl => if mk fl then 0 else v fl) m1 m2).symm

theorem randomly_resampled_2D_model_preserves_total_witness :
    (∃ t, Dadi.randomly_resampled_2D_model ⟨[2, 2], fun fl => (fl : ℚ) + 1, fun _ => false⟩ =
          .ok t ∧
        Dadi.maskedSum t =
          Dadi.maskedSum ⟨[2, 2], fun fl => (fl : ℚ) + 1, fun _ => false⟩) ∧
      Dadi.maskedSum ⟨[2, 2], fun fl => (fl : ℚ) + 1, fun _ => false⟩ = 10 := by
  refine ⟨randomly_resampled_2D_model_preserves_total _ 2 2 rfl (by norm_num) (by norm_num), ?_⟩
  simp [Dadi.maskedSum, Dadi.Spectrum.size, Finset.sum_range_succ]
  norm_num

namespace Dadi

/-- Row-major enumeration of all multi-indices of a shape; the position of a
multi-index in this list is its flat (C-order) index.  This mirrors the
`counts_per_pop` array built from `numpy.indices(sfs.shape)` and transposed so
that the last axis records the indices of the entry (SFS.py lines 112-113). -/
def multiIndices : List ℕ → List (List ℕ)
  | [] => [[]]
  | s :: rest => (List.range s).flatMap fun i => (multiIndices rest).map (i :: ·)

/-- Embedding of `Fst` (SFS.py lines 88-136), faithful to Python 2 division
semantics.  `r = sfs.ndim`, `ns = shape - 1`; `nbar = numpy.mean(ns)` is a
float (exact rational here).  `nc = (nsum - numpy.sum(ns**2)/nsum)/(r-1)` is
computed entirely on integers: both divisions are Python 2 floor divisions
(`ncInt`).  Likewise `(r-1)/r` in `a` and `d` is an integer division
(`ratioInt`, equal to `0` for every `r ≥ 2`).  `ptwiddle = 1.*idx/ns`,
`pbar = sum(ns*ptwiddle)/nsum` and
`s2 = sum(ns*(ptwiddle-pbar)**2)/((r-1)*nbar)` are float computations,
exact over `ℚ`.  `asum = (sfs*a).sum()` and `dsum = (sfs*d).sum()` honor the
mask; the result is `asum/(asum+dsum)`. -/
def Fst (s : Spectrum) : ℚ :=
  let r := s.shape.length
  let ns : List ℕ := s.shape.map (fun m => m - 1)
  let nsum : ℕ := ns.sum
  let nbar : ℚ := (nsum : ℚ) / (r : ℚ)
  let ncInt : ℕ := (nsum - (ns.map (fun n => n ^ 2)).sum / nsum) / (r - 1)
  let ratioInt : ℕ := (r - 1) / r
  let pbar : List ℕ → ℚ := fun idx =>
    (List.zipWith (fun n i => (n : ℚ) * ((i : ℚ) / (n : ℚ))) ns idx).sum / (nsum : ℚ)
  let s2 : List ℕ → ℚ := fun idx =>
    (List.zipWith (fun n i => (n : ℚ) * ((i : ℚ) / (n : ℚ) - pbar idx) ^ 2) ns idx).sum /
      (((r - 1 : ℕ) : ℚ) * nbar)
  let a : List ℕ → ℚ := fun idx =>
    nbar / (ncInt : ℚ) *
      (s2 idx - 1 / (2 * nbar - 1) *
        (pbar idx * (1 - pbar idx) - (ratioInt : ℚ) * s2 idx))
  let d : List ℕ → ℚ := fun idx =>
    2 * nbar / (2 * nbar - 1) * (pbar idx * (1 - pbar idx) - (ratioInt : ℚ) * s2 idx)
  let entries := (multiIndices s.shape).enum
  let asum : ℚ := (entries.map fun p => if s.mask p.1 then 0 else s.vals p.1 * a p.2).sum
  let dsum : ℚ := (entries.map fun p => if s.mask p.1 then 0 else s.vals p.1 * d p.2).sum
  asum / (asum + dsum)

end Dadi

/-- Concrete 3×3 SFS for claim C1: a single site, with derived count 1 in the
first population and 0 in the second (flat index 3 = multi-index (1,0)). -/
def sfsC1 : Dadi.Spectrum := ⟨[3, 3], fun fl => if fl = 3 then 1 else 0, fun _ => false⟩

/-- Claim C1 is a code bug: `Fst` evaluated at `sfsC1` (shape `(3,3)`, one
site at entry `(1,0)`, nothing masked).  Here `ns = [2,2]`, `nbar = 2`,
`nc = 2`, and at the occupied entry `pbar = 1/4`, `s2 = 1/8`.  The code's
Python 2 integer division gives `(r-1)/r = 0`, so `a = 1/8 - (1/3)(3/16) =
1/16` and `d = (4/3)(3/16) = 1/4`, whence `Fst = 1/5`.  The claim's exact
rational `(r-1)/r = 1/2` instead gives `a = 1/8 - (1/3)(3/16 - 1/16) = 1/12`
and `d = (4/3)(1/8) = 1/6`, whence `asum/(asum+dsum) = 1/3 ≠ 1/5`. -/
theorem Fst_python2_division_at_counterexample :
    Dadi.Fst sfsC1 = 1 / 5 ∧ (1 / 5 : ℚ) ≠ 1 / 3 := by
  constructor
  · have hmi : Dadi.multiIndices [3, 3] =
        [[0,0],[0,1],[0,2],[1,0],[1,1],[1,2],[2,0],[2,1],[2,2]] := rfl
    simp only [Dadi.Fst, sfsC1, hmi]
    norm_num [List.enum, List.enumFrom, List.zipWith, List.sum_cons]
  · norm_num

/-- Concrete 1-D SFS of length 5 for claim C2: one site with derived count 1
out of n = 4 (nothing masked). -/
def sfsC2 : Dadi.Spectrum := ⟨[5], fun i => if i = 1 then 1 else 0, fun _ => false⟩

/-- Claim C2 is a code bug: `pi` evaluated at `sfsC2` (`n = 4`).  The code's
Python 2 integer division gives `n/(n-1) = 4/3 = 1` (integer-truncated), so
`pi = 1 * 2 * (1/4)(3/4) = 3/8`; the claim's exact rational `n/(n-1) = 4/3`
gives `4/3 * 2 * 3/16 = 1/2 ≠ 3/8`. -/
theorem pi_integer_division_at_counterexample :
    Dadi.pi sfsC2 = .ok (3 / 8) ∧ (3 / 8 : ℚ) ≠ 4 / 3 * 2 * (3 / 16) := by
  constructor
  · show Except.ok _ = _
    congr 1
    norm_num [sfsC2, Finset.sum_range_succ]
  · norm_num
